import Mathlib

/-!
Verification of the `nBody` simulation in `src/3body.go` (repository psmason/3body).

The Go code is shallowly embedded: `float64` arithmetic is modelled by real
numbers, machine integers of the rasterizer by `ℤ`, the paletted image by a
function from pixel coordinates to palette indices, and the per-tick loop body
of `nBody` by explicit state passing.
-/

namespace ThreeBody

/-- Constant `greenIndex = 1` from `nBody` in src/3body.go. -/
def greenIndex : ℕ := 1

/-- Constant `size = 800` (canvas extent) from `nBody` in src/3body.go. -/
def size : ℤ := 800

/-- Constant `g = 1E-1` (gravitational constant) from `nBody` in src/3body.go. -/
noncomputable def g : ℝ := 1e-1

/-- Constant `epoch = 5` (simulation timestep) from `nBody` in src/3body.go. -/
noncomputable def epoch : ℝ := 5

/-- Constant `drawRadius = 8` from `nBody` in src/3body.go. -/
def drawRadius : ℤ := 8

/-- The `particle` struct of `nBody` (src/3body.go lines 98-102). -/
structure particle where
  mass : ℝ
  xPosition : ℝ
  yPosition : ℝ
  xVelocity : ℝ
  yVelocity : ℝ

/-- The `force` struct of `nBody` (src/3body.go lines 119-121). -/
structure force where
  x : ℝ
  y : ℝ

/-- `distanceFn` (src/3body.go lines 104-107): Euclidean distance. -/
noncomputable def distanceFn (p1 p2 : particle) : ℝ :=
  Real.sqrt ((p1.xPosition - p2.xPosition) ^ 2 + (p1.yPosition - p2.yPosition) ^ 2)

/-- `forceFn` (src/3body.go lines 123-134): zero at zero distance, otherwise the
coefficient `g * m1 * m2 / d^2` times the (unnormalized) separation vector. -/
noncomputable def forceFn (p1 p2 : particle) : force :=
  let d := distanceFn p1 p2
  if d = 0 then { x := 0, y := 0 }
  else
    let c := g * p1.mass * p2.mass / d ^ 2
    { x := c * (p2.xPosition - p1.xPosition)
      y := c * (p2.yPosition - p1.yPosition) }

/-- `updateFn` (src/3body.go lines 136-144): one symplectic-Euler-style step. -/
noncomputable def updateFn (p : particle) (f : force) : particle :=
  { mass := p.mass
    xPosition := p.xPosition + epoch * p.xVelocity
    yPosition := p.yPosition + epoch * p.yVelocity
    xVelocity := p.xVelocity + epoch * f.x / p.mass
    yVelocity := p.yVelocity + epoch * f.y / p.mass }

/-- Euclidean norm of a force vector (used to state magnitude claims). -/
noncomputable def forceNorm (f : force) : ℝ :=
  Real.sqrt (f.x ^ 2 + f.y ^ 2)

lemma distanceFn_nonneg (p1 p2 : particle) : 0 ≤ distanceFn p1 p2 :=
  Real.sqrt_nonneg _

lemma sq_distanceFn (p1 p2 : particle) :
    distanceFn p1 p2 ^ 2
      = (p1.xPosition - p2.xPosition) ^ 2 + (p1.yPosition - p2.yPosition) ^ 2 :=
  Real.sq_sqrt (by positivity)

lemma distanceFn_comm (p1 p2 : particle) : distanceFn p1 p2 = distanceFn p2 p1 := by
  unfold distanceFn
  congr 1
  ring

lemma distanceFn_self (p : particle) : distanceFn p p = 0 := by
  simp [distanceFn]

lemma forceFn_of_ne (p1 p2 : particle) (hd : distanceFn p1 p2 ≠ 0) :
    forceFn p1 p2
      = { x := g * p1.mass * p2.mass / distanceFn p1 p2 ^ 2 * (p2.xPosition - p1.xPosition)
          y := g * p1.mass * p2.mass / distanceFn p1 p2 ^ 2 * (p2.yPosition - p1.yPosition) } := by
  simp [forceFn, hd]

lemma forceFn_of_eq (p1 p2 : particle) (hd : distanceFn p1 p2 = 0) :
    forceFn p1 p2 = { x := 0, y := 0 } := by
  simp [forceFn, hd]

/-- Unconditional antisymmetry of the x component of `forceFn`. -/
lemma forceFn_antisymm_x (a b : particle) : (forceFn a b).x = -(forceFn b a).x := by
  by_cases hd : distanceFn a b = 0
  · have hd2 : distanceFn b a = 0 := by rw [← distanceFn_comm]; exact hd
    rw [forceFn_of_eq a b hd, forceFn_of_eq b a hd2]
    simp
  · have hd2 : distanceFn b a ≠ 0 := by rw [← distanceFn_comm]; exact hd
    rw [forceFn_of_ne a b hd, forceFn_of_ne b a hd2, distanceFn_comm b a]
    ring

/-- Unconditional antisymmetry of the y component of `forceFn`. -/
lemma forceFn_antisymm_y (a b : particle) : (forceFn a b).y = -(forceFn b a).y := by
  by_cases hd : distanceFn a b = 0
  · have hd2 : distanceFn b a = 0 := by rw [← distanceFn_comm]; exact hd
    rw [forceFn_of_eq a b hd, forceFn_of_eq b a hd2]
    simp
  · have hd2 : distanceFn b a ≠ 0 := by rw [← distanceFn_comm]; exact hd
    rw [forceFn_of_ne a b hd, forceFn_of_ne b a hd2, distanceFn_comm b a]
    ring

/-- Magnitude of `forceFn` at nonzero separation: the coefficient
`g * m1 * m2 / d^2` multiplies the separation vector of length `d`, so the
magnitude is `|g * m1 * m2| / d`. -/
lemma forceNorm_forceFn (a b : particle) (hd : distanceFn a b ≠ 0) :
    forceNorm (forceFn a b) = |g * a.mass * b.mass| / distanceFn a b := by
  have hnn := distanceFn_nonneg a b
  have hd0 : 0 < distanceFn a b := lt_of_le_of_ne hnn (Ne.symm hd)
  have hsep : (b.xPosition - a.xPosition) ^ 2 + (b.yPosition - a.yPosition) ^ 2
      = distanceFn a b ^ 2 := by
    rw [sq_distanceFn a b]; ring
  rw [forceFn_of_ne a b hd]
  unfold forceNorm
  have key : (g * a.mass * b.mass / distanceFn a b ^ 2 * (b.xPosition - a.xPosition)) ^ 2
      + (g * a.mass * b.mass / distanceFn a b ^ 2 * (b.yPosition - a.yPosition)) ^ 2
      = (g * a.mass * b.mass / distanceFn a b ^ 2 * distanceFn a b) ^ 2 := by
    linear_combination (g * a.mass * b.mass / distanceFn a b ^ 2) ^ 2 * hsep
  rw [show ({ x := g * a.mass * b.mass / distanceFn a b ^ 2 * (b.xPosition - a.xPosition),
              y := g * a.mass * b.mass / distanceFn a b ^ 2 * (b.yPosition - a.yPosition) } :
      force).x = g * a.mass * b.mass / distanceFn a b ^ 2 * (b.xPosition - a.xPosition) from rfl]
  rw [show ({ x := g * a.mass * b.mass / distanceFn a b ^ 2 * (b.xPosition - a.xPosition),
              y := g * a.mass * b.mass / distanceFn a b ^ 2 * (b.yPosition - a.yPosition) } :
      force).y = g * a.mass * b.mass / distanceFn a b ^ 2 * (b.yPosition - a.yPosition) from rfl]
  rw [key, Real.sqrt_sq_eq_abs, abs_mul, abs_div, abs_of_nonneg hnn,
    abs_of_nonneg (sq_nonneg (distanceFn a b))]
  field_simp
  ring

/-- A unit-mass particle at rest at the world origin. -/
noncomputable def pO : particle :=
  { mass := 1, xPosition := 0, yPosition := 0, xVelocity := 0, yVelocity := 0 }

/-- A unit-mass particle at rest at world position (1, 0). -/
noncomputable def pX1 : particle :=
  { mass := 1, xPosition := 1, yPosition := 0, xVelocity := 0, yVelocity := 0 }

/-- A unit-mass particle at rest at world position (2, 0). -/
noncomputable def pX2 : particle :=
  { mass := 1, xPosition := 2, yPosition := 0, xVelocity := 0, yVelocity := 0 }

/-- A unit-mass particle at rest at world position (3, 4). -/
noncomputable def pXY : particle :=
  { mass := 1, xPosition := 3, yPosition := 4, xVelocity := 0, yVelocity := 0 }

lemma distanceFn_pO_pX1 : distanceFn pO pX1 = 1 := by
  unfold distanceFn pO pX1
  norm_num

lemma distanceFn_pO_pX2 : distanceFn pO pX2 = 2 := by
  unfold distanceFn pO pX2
  rw [show ((0:ℝ) - 2) ^ 2 + ((0:ℝ) - 0) ^ 2 = 2 ^ 2 by norm_num]
  exact Real.sqrt_sq (by norm_num)

lemma distanceFn_pO_pXY : distanceFn pO pXY = 5 := by
  unfold distanceFn pO pXY
  rw [show ((0:ℝ) - 3) ^ 2 + ((0:ℝ) - 4) ^ 2 = 5 ^ 2 by norm_num]
  exact Real.sqrt_sq (by norm_num)

/-- C1 counterexample: at separation 1 the magnitude of `forceFn` equals
`1 * (g * m_a * m_b / d^2)` while at separation 2 it equals
`2 * (g * m_a * m_b / d^2)`, so no single constant of proportionality relates
the magnitude to the inverse-square expression: `forceFn` does not implement an
inverse-square magnitude law. -/
theorem forceFn_not_inverse_square :
    forceNorm (forceFn pO pX1) = 1 * (g * pO.mass * pX1.mass / distanceFn pO pX1 ^ 2) ∧
    forceNorm (forceFn pO pX2) = 2 * (g * pO.mass * pX2.mass / distanceFn pO pX2 ^ 2) ∧
    ¬ ∃ k : ℝ, ∀ a b : particle, distanceFn a b ≠ 0 →
        forceNorm (forceFn a b) = k * (g * a.mass * b.mass / distanceFn a b ^ 2) := by
  have hg : g = 1e-1 := rfl
  have h1 : forceNorm (forceFn pO pX1) = 1 * (g * pO.mass * pX1.mass / distanceFn pO pX1 ^ 2) := by
    rw [forceNorm_forceFn pO pX1 (by rw [distanceFn_pO_pX1]; norm_num), distanceFn_pO_pX1]
    show |g * pO.mass * pX1.mass| / 1 = 1 * (g * pO.mass * pX1.mass / 1 ^ 2)
    rw [show pO.mass = 1 from rfl, show pX1.mass = 1 from rfl, hg]
    norm_num
  have h2 : forceNorm (forceFn pO pX2) = 2 * (g * pO.mass * pX2.mass / distanceFn pO pX2 ^ 2) := by
    rw [forceNorm_forceFn pO pX2 (by rw [distanceFn_pO_pX2]; norm_num), distanceFn_pO_pX2]
    show |g * pO.mass * pX2.mass| / 2 = 2 * (g * pO.mass * pX2.mass / 2 ^ 2)
    rw [show pO.mass = 1 from rfl, show pX2.mass = 1 from rfl, hg,
      show |(1e-1:ℝ) * 1 * 1| = 1e-1 * 1 * 1 from abs_of_pos (by norm_num)]
    norm_num
  refine ⟨h1, h2, ?_⟩
  rintro ⟨k, hk⟩
  have e1 := hk pO pX1 (by rw [distanceFn_pO_pX1]; norm_num)
  have e2 := hk pO pX2 (by rw [distanceFn_pO_pX2]; norm_num)
  rw [h1] at e1
  rw [h2] at e2
  have hgm1 : g * pO.mass * pX1.mass / distanceFn pO pX1 ^ 2 ≠ 0 := by
    rw [distanceFn_pO_pX1, show pO.mass = 1 from rfl, show pX1.mass = 1 from rfl, hg]
    norm_num
  have hgm2 : g * pO.mass * pX2.mass / distanceFn pO pX2 ^ 2 ≠ 0 := by
    rw [distanceFn_pO_pX2, show pO.mass = 1 from rfl, show pX2.mass = 1 from rfl, hg]
    norm_num
  have hk1 : k = 1 := by
    have := mul_right_cancel₀ hgm1 (e1.symm.trans rfl)
    linarith [mul_right_cancel₀ hgm1 e1.symm]
  have hk2 : k = 2 := by
    linarith [mul_right_cancel₀ hgm2 e2.symm]
  linarith

/-- C1 (amended): at nonzero separation `d` and positive masses, the force
returned by `forceFn` has magnitude `g * m_a * m_b / d` (inverse first power of
distance, because the coefficient `g * m_a * m_b / d^2` multiplies the
unnormalized separation vector), and it is directed along the unit vector from
`a` to `b`: each component is the magnitude times the corresponding component
of the unit vector. -/
theorem forceFn_inverse_first_power (a b : particle) (ha : 0 < a.mass) (hb : 0 < b.mass)
    (hd : distanceFn a b ≠ 0) :
    forceNorm (forceFn a b) = g * a.mass * b.mass / distanceFn a b ∧
    (forceFn a b).x
      = g * a.mass * b.mass / distanceFn a b * ((b.xPosition - a.xPosition) / distanceFn a b) ∧
    (forceFn a b).y
      = g * a.mass * b.mass / distanceFn a b * ((b.yPosition - a.yPosition) / distanceFn a b) := by
  have hg : (0:ℝ) < g := by rw [show g = 1e-1 from rfl]; norm_num
  have habs : |g * a.mass * b.mass| = g * a.mass * b.mass :=
    abs_of_pos (by positivity)
  refine ⟨?_, ?_, ?_⟩
  · rw [forceNorm_forceFn a b hd, habs]
  · rw [forceFn_of_ne a b hd]
    show g * a.mass * b.mass / distanceFn a b ^ 2 * (b.xPosition - a.xPosition) = _
    ring
  · rw [forceFn_of_ne a b hd]
    show g * a.mass * b.mass / distanceFn a b ^ 2 * (b.yPosition - a.yPosition) = _
    ring

/-- Witness for the amended C1 at the concrete pair `pO`, `pXY` (separation 5). -/
theorem forceFn_inverse_first_power_witness :
    0 < pO.mass ∧ 0 < pXY.mass ∧ distanceFn pO pXY ≠ 0 ∧
    (forceNorm (forceFn pO pXY) = g * pO.mass * pXY.mass / distanceFn pO pXY ∧
     (forceFn pO pXY).x
       = g * pO.mass * pXY.mass / distanceFn pO pXY
           * ((pXY.xPosition - pO.xPosition) / distanceFn pO pXY) ∧
     (forceFn pO pXY).y
       = g * pO.mass * pXY.mass / distanceFn pO pXY
           * ((pXY.yPosition - pO.yPosition) / distanceFn pO pXY)) := by
  have ha : 0 < pO.mass := by rw [show pO.mass = 1 from rfl]; norm_num
  have hb : 0 < pXY.mass := by rw [show pXY.mass = 1 from rfl]; norm_num
  have hd : distanceFn pO pXY ≠ 0 := by rw [distanceFn_pO_pXY]; norm_num
  exact ⟨ha, hb, hd, forceFn_inverse_first_power pO pXY ha hb hd⟩

/-- C3: one integration step advances position by the timestep times the
current (pre-step) velocity and velocity by the timestep times the force
divided by the particle's mass; the particle record carries no acceleration
state. -/
theorem updateFn_symplectic_euler (p : particle) (f : force) :
    (updateFn p f).xPosition = p.xPosition + epoch * p.xVelocity ∧
    (updateFn p f).yPosition = p.yPosition + epoch * p.yVelocity ∧
    (updateFn p f).xVelocity = p.xVelocity + epoch * (f.x / p.mass) ∧
    (updateFn p f).yVelocity = p.yVelocity + epoch * (f.y / p.mass) := by
  refine ⟨rfl, rfl, ?_, ?_⟩
  · show p.xVelocity + epoch * f.x / p.mass = p.xVelocity + epoch * (f.x / p.mass)
    rw [mul_div_assoc]
  · show p.yVelocity + epoch * f.y / p.mass = p.yVelocity + epoch * (f.y / p.mass)
    rw [mul_div_assoc]

/-- C4: Newton's third law — for distinct particles at nonzero separation,
`forceFn a b` is the component-wise negation of `forceFn b a`. -/
theorem forceFn_newton_third_law (a b : particle) (hab : a ≠ b)
    (hd : distanceFn a b ≠ 0) :
    (forceFn a b).x = -(forceFn b a).x ∧ (forceFn a b).y = -(forceFn b a).y :=
  ⟨forceFn_antisymm_x a b, forceFn_antisymm_y a b⟩

/-- Witness for C4 at the concrete pair `pO`, `pX1` (separation 1). -/
theorem forceFn_newton_third_law_witness :
    pO ≠ pX1 ∧ distanceFn pO pX1 ≠ 0 ∧
    ((forceFn pO pX1).x = -(forceFn pX1 pO).x ∧ (forceFn pO pX1).y = -(forceFn pX1 pO).y) := by
  have hab : pO ≠ pX1 := by
    intro h
    have hx := congrArg particle.xPosition h
    rw [show pO.xPosition = 0 from rfl, show pX1.xPosition = 1 from rfl] at hx
    norm_num at hx
  have hd : distanceFn pO pX1 ≠ 0 := by rw [distanceFn_pO_pX1]; norm_num
  exact ⟨hab, hd, forceFn_newton_third_law pO pX1 hab hd⟩

/-- C5: at exactly zero Euclidean distance — in particular for a particle
paired with itself — `forceFn` returns the zero vector; the division by the
squared distance is never taken in that case. -/
theorem forceFn_zero_separation :
    (∀ a b : particle, distanceFn a b = 0 → forceFn a b = { x := 0, y := 0 }) ∧
    (∀ a : particle, forceFn a a = { x := 0, y := 0 }) :=
  ⟨fun a b hd => forceFn_of_eq a b hd,
   fun a => forceFn_of_eq a a (distanceFn_self a)⟩

/-- Witness for C5 at the concrete coincident pair `pO`, `pO`. -/
theorem forceFn_zero_separation_witness :
    distanceFn pO pO = 0 ∧ forceFn pO pO = { x := 0, y := 0 } :=
  ⟨distanceFn_self pO, forceFn_zero_separation.1 pO pO (distanceFn_self pO)⟩

/-- A paletted image, modelled as a map from pixel coordinates to palette
indices. -/
def Image : Type := ℤ → ℤ → ℕ

/-- `img.SetColorIndex x y c` from the Go image library: writes the palette
index `c` at pixel `(x, y)` when it lies inside the rectangle
`(0, 0)-(size+1, size+1)`, and is a no-op otherwise. -/
def setColorIndex (img : Image) (x y : ℤ) (c : ℕ) : Image :=
  fun px py =>
    if 0 ≤ x ∧ x < size + 1 ∧ 0 ≤ y ∧ y < size + 1 ∧ px = x ∧ py = y then c
    else img px py

/-- The freshly allocated paletted image of each tick: every pixel holds
palette index 0 (black). -/
def blankImage : Image := fun _ _ => 0

/-- Go `int(r)` conversion from `float64`: truncation toward zero. -/
noncomputable def trunc (r : ℝ) : ℤ := if 0 ≤ r then ⌊r⌋ else ⌈r⌉

lemma trunc_zero : trunc 0 = 0 := by
  simp [trunc]

/-- The values taken by a Go loop `for v := -r; v < r; v++`. -/
def offsets (r : ℤ) : List ℤ := (List.range (2 * r).toNat).map (fun i : ℕ => -r + (i : ℤ))

lemma mem_offsets (r a : ℤ) : a ∈ offsets r ↔ -r ≤ a ∧ a < r := by
  unfold offsets
  rw [List.mem_map]
  constructor
  · rintro ⟨i, hi, rfl⟩
    rw [List.mem_range] at hi
    omega
  · rintro ⟨h1, h2⟩
    refine ⟨(a + r).toNat, ?_, ?_⟩
    · rw [List.mem_range]
      omega
    · omega

/-- `drawCircle` (src/3body.go lines 146-154): rasterizes a filled disk of
radius `r` around the particle's pixel position into the image. -/
noncomputable def drawCircle (img : Image) (p : particle) (r : ℤ) (c : ℕ) : Image :=
  (offsets r).foldl
    (fun m1 x =>
      (offsets r).foldl
        (fun m2 y =>
          if x * x + y * y < r * r then
            setColorIndex m2 (size / 2 + trunc p.xPosition + x)
              (size / 2 + trunc p.yPosition + y) c
          else m2)
        m1)
    img

/-- The `totalForce` accumulation of `nBody` (src/3body.go lines 173-178):
fold of the pairwise forces from every particle of the pre-step sequence. -/
noncomputable def totalForce (particles : List particle) (p1 : particle) : force :=
  particles.foldl
    (fun t p2 =>
      let partialForce := forceFn p1 p2
      { x := t.x + partialForce.x, y := t.y + partialForce.y })
    { x := 0, y := 0 }

/-- The body of one iteration of the `nBody` loop over the particle sequence
(src/3body.go lines 169-180): draw each particle into the image, accumulate
its net force against the pre-step sequence, and append its updated state. -/
noncomputable def nBodyInner (particles : List particle) (img0 : Image) :
    Image × List particle :=
  particles.foldl
    (fun acc p1 =>
      (drawCircle acc.1 p1 drawRadius greenIndex,
       acc.2 ++ [updateFn p1 (totalForce particles p1)]))
    (img0, [])

/-- The mutable state of the `nBody` tick loop: the frame counter (number of
`png.Encode` calls so far) and the particle sequence. -/
structure LoopState where
  frame : ℕ
  particles : List particle

/-- One iteration of the unconditional `for` loop of `nBody`
(src/3body.go lines 161-184): build the frame and the updated sequence, write
the encoded frame to the sink — the write's result is discarded, never
checked — and replace the particle sequence. -/
noncomputable def loopStep (sink : ℕ → Image → Except String Unit)
    (s : LoopState) : LoopState :=
  let stepResult := nBodyInner s.particles blankImage
  let _ := sink s.frame stepResult.1
  { frame := s.frame + 1, particles := stepResult.2 }

lemma totalForce_aux (ps : List particle) (p1 : particle) (t : force) :
    ps.foldl
      (fun t p2 =>
        let partialForce := forceFn p1 p2
        { x := t.x + partialForce.x, y := t.y + partialForce.y }) t
      = { x := t.x + (ps.map fun p2 => (forceFn p1 p2).x).sum,
          y := t.y + (ps.map fun p2 => (forceFn p1 p2).y).sum } := by
  induction ps generalizing t with
  | nil => simp
  | cons h tl ih =>
      rw [List.foldl_cons, ih]
      simp only [List.map_cons, List.sum_cons]
      rw [add_assoc, add_assoc]

/-- The accumulated `totalForce` is the component-wise sum of the pairwise
forces over the whole pre-step sequence. -/
lemma totalForce_eq (ps : List particle) (p1 : particle) :
    totalForce ps p1
      = { x := (ps.map fun p2 => (forceFn p1 p2).x).sum,
          y := (ps.map fun p2 => (forceFn p1 p2).y).sum } := by
  unfold totalForce
  rw [totalForce_aux]
  simp

lemma nBodyInner_aux (prev l : List particle) (img : Image) (acc : List particle) :
    (l.foldl
      (fun acc2 p1 =>
        (drawCircle acc2.1 p1 drawRadius greenIndex,
         acc2.2 ++ [updateFn p1 (totalForce prev p1)]))
      (img, acc)).2
      = acc ++ l.map fun p1 => updateFn p1 (totalForce prev p1) := by
  induction l generalizing img acc with
  | nil => simp
  | cons h tl ih =>
      rw [List.foldl_cons, ih]
      simp

/-- The particle component of one tick is the map of the update over the
pre-step sequence, with every net force taken against the pre-step sequence. -/
lemma nBodyInner_snd (ps : List particle) (img0 : Image) :
    (nBodyInner ps img0).2 = ps.map fun p1 => updateFn p1 (totalForce ps p1) := by
  unfold nBodyInner
  rw [nBodyInner_aux]
  simp

/-- C2: the new particle sequence of a tick is built entirely from the
pre-step configuration — entry `i` is the update of pre-step particle `i` by
the vector sum of `forceFn` against every particle of the pre-step sequence
(including itself, which contributes the zero vector); no already-updated
position is ever consulted. -/
theorem nBody_forces_from_prev_step :
    (∀ (ps : List particle) (img0 : Image),
      (nBodyInner ps img0).2
        = ps.map fun p1 =>
            updateFn p1
              { x := (ps.map fun p2 => (forceFn p1 p2).x).sum,
                y := (ps.map fun p2 => (forceFn p1 p2).y).sum }) ∧
    (∀ p : particle, forceFn p p = { x := 0, y := 0 }) := by
  constructor
  · intro ps img0
    rw [nBodyInner_snd]
    simp only [totalForce_eq]
  · intro p
    exact forceFn_of_eq p p (distanceFn_self p)

/-- C6: a tick never changes the length of the particle sequence, and over any
number of iterations of the `nBody` loop the particle count stays what it was
at the start of the run. -/
theorem particle_count_invariant :
    (∀ (ps : List particle) (img0 : Image),
      ((nBodyInner ps img0).2).length = ps.length) ∧
    (∀ (sink : ℕ → Image → Except String Unit) (s : LoopState) (n : ℕ),
      ((loopStep sink)^[n] s).particles.length = s.particles.length) := by
  have hlen : ∀ (ps : List particle) (img0 : Image),
      ((nBodyInner ps img0).2).length = ps.length := by
    intro ps img0
    rw [nBodyInner_snd, List.length_map]
  refine ⟨hlen, ?_⟩
  intro sink s n
  induction n with
  | zero => rfl
  | succ n ih =>
      rw [Function.iterate_succ_apply']
      show ((nBodyInner ((loopStep sink)^[n] s).particles blankImage).2).length = _
      rw [hlen, ih]

/-- C7: `updateFn` copies the mass through unchanged, so the list of masses of
the particle sequence is the same after a tick as before it. -/
theorem mass_invariant :
    (∀ (p : particle) (f : force), (updateFn p f).mass = p.mass) ∧
    (∀ (ps : List particle) (img0 : Image),
      ((nBodyInner ps img0).2).map particle.mass = ps.map particle.mass) := by
  constructor
  · intro p f
    rfl
  · intro ps img0
    rw [nBodyInner_snd, List.map_map]
    rfl

/-- C9: the result of the per-tick sink write is discarded — iterating the
loop under any two sinks produces identical states, each iteration
unconditionally advances to the next tick, and the particle sequence it
computes is the one a successful write would have produced. -/
theorem sink_write_result_ignored :
    (∀ (sink1 sink2 : ℕ → Image → Except String Unit) (s : LoopState) (n : ℕ),
      (loopStep sink1)^[n] s = (loopStep sink2)^[n] s) ∧
    (∀ (sink : ℕ → Image → Except String Unit) (s : LoopState),
      (loopStep sink s).particles = (nBodyInner s.particles blankImage).2 ∧
      (loopStep sink s).frame = s.frame + 1) := by
  have hstep : ∀ (sink1 sink2 : ℕ → Image → Except String Unit),
      loopStep sink1 = loopStep sink2 := by
    intro sink1 sink2
    funext s
    rfl
  exact ⟨fun sink1 sink2 s n => by rw [hstep sink1 sink2],
         fun sink s => ⟨rfl, rfl⟩⟩

lemma listSum_map_add {α : Type} (l : List α) (f h : α → ℝ) :
    (l.map fun a => f a + h a).sum = (l.map f).sum + (l.map h).sum := by
  induction l with
  | nil => simp
  | cons x t ih =>
      simp only [List.map_cons, List.sum_cons, ih]
      ring

lemma listSum_map_neg {α : Type} (l : List α) (f : α → ℝ) :
    (l.map fun a => -f a).sum = -(l.map f).sum := by
  induction l with
  | nil => simp
  | cons x t ih =>
      simp only [List.map_cons, List.sum_cons, ih]
      ring

lemma listSum_map_mul_left {α : Type} (l : List α) (c : ℝ) (f : α → ℝ) :
    (l.map fun a => c * f a).sum = c * (l.map f).sum := by
  induction l with
  | nil => simp
  | cons x t ih =>
      simp only [List.map_cons, List.sum_cons, ih]
      ring

/-- A doubly indexed sum of an antisymmetric function over one list vanishes. -/
lemma double_sum_antisymm {α : Type} (f : α → α → ℝ) (hf : ∀ a b, f a b = -f b a)
    (l : List α) :
    (l.map fun a => (l.map fun b => f a b).sum).sum = 0 := by
  induction l with
  | nil => simp
  | cons x t ih =>
      simp only [List.map_cons, List.sum_cons]
      rw [listSum_map_add t (fun a => f a x) (fun a => (t.map fun b => f a b).sum)]
      have hself : f x x = 0 := by
        have h := hf x x
        linarith
      have hswap : (t.map fun a => f a x).sum = -(t.map fun a => f x a).sum := by
        rw [show (t.map fun a => f a x) = t.map fun a => -f x a from
          List.map_congr_left fun a _ => hf a x]
        exact listSum_map_neg t (fun a => f x a)
      rw [hself, hswap, ih]
      ring

/-- C10: in exact real arithmetic a tick preserves total momentum — the sum of
mass times velocity over the particle sequence is unchanged by the integration
step, because the pairwise forces are antisymmetric and self-forces vanish, so
the accumulated net forces sum to zero. -/
theorem momentum_conserved (ps : List particle) (img0 : Image)
    (hm : ∀ p ∈ ps, p.mass ≠ 0) :
    (((nBodyInner ps img0).2).map fun p => p.mass * p.xVelocity).sum
        = (ps.map fun p => p.mass * p.xVelocity).sum ∧
    (((nBodyInner ps img0).2).map fun p => p.mass * p.yVelocity).sum
        = (ps.map fun p => p.mass * p.yVelocity).sum := by
  have hx : ∀ p1 ∈ ps,
      (updateFn p1 (totalForce ps p1)).mass * (updateFn p1 (totalForce ps p1)).xVelocity
        = p1.mass * p1.xVelocity + epoch * (totalForce ps p1).x := by
    intro p1 h1
    show p1.mass * (p1.xVelocity + epoch * (totalForce ps p1).x / p1.mass) = _
    field_simp [hm p1 h1]
    ring
  have hy : ∀ p1 ∈ ps,
      (updateFn p1 (totalForce ps p1)).mass * (updateFn p1 (totalForce ps p1)).yVelocity
        = p1.mass * p1.yVelocity + epoch * (totalForce ps p1).y := by
    intro p1 h1
    show p1.mass * (p1.yVelocity + epoch * (totalForce ps p1).y / p1.mass) = _
    field_simp [hm p1 h1]
    ring
  have hfx : (ps.map fun p1 => (totalForce ps p1).x).sum = 0 := by
    rw [show (ps.map fun p1 => (totalForce ps p1).x)
        = ps.map fun p1 => (ps.map fun p2 => (forceFn p1 p2).x).sum from
      List.map_congr_left fun p1 _ => by rw [totalForce_eq]]
    exact double_sum_antisymm (fun a b => (forceFn a b).x) forceFn_antisymm_x ps
  have hfy : (ps.map fun p1 => (totalForce ps p1).y).sum = 0 := by
    rw [show (ps.map fun p1 => (totalForce ps p1).y)
        = ps.map fun p1 => (ps.map fun p2 => (forceFn p1 p2).y).sum from
      List.map_congr_left fun p1 _ => by rw [totalForce_eq]]
    exact double_sum_antisymm (fun a b => (forceFn a b).y) forceFn_antisymm_y ps
  constructor
  · rw [nBodyInner_snd, List.map_map]
    rw [show (ps.map ((fun p => p.mass * p.xVelocity) ∘ fun p1 => updateFn p1 (totalForce ps p1)))
        = ps.map fun p1 => p1.mass * p1.xVelocity + epoch * (totalForce ps p1).x from
      List.map_congr_left fun p1 h1 => hx p1 h1]
    rw [listSum_map_add ps (fun p1 => p1.mass * p1.xVelocity)
      (fun p1 => epoch * (totalForce ps p1).x)]
    rw [listSum_map_mul_left ps epoch (fun p1 => (totalForce ps p1).x), hfx]
    ring
  · rw [nBodyInner_snd, List.map_map]
    rw [show (ps.map ((fun p => p.mass * p.yVelocity) ∘ fun p1 => updateFn p1 (totalForce ps p1)))
        = ps.map fun p1 => p1.mass * p1.yVelocity + epoch * (totalForce ps p1).y from
      List.map_congr_left fun p1 h1 => hy p1 h1]
    rw [listSum_map_add ps (fun p1 => p1.mass * p1.yVelocity)
      (fun p1 => epoch * (totalForce ps p1).y)]
    rw [listSum_map_mul_left ps epoch (fun p1 => (totalForce ps p1).y), hfy]
    ring

/-- Witness for C10 on the concrete one-particle system `[pO]`. -/
theorem momentum_conserved_witness :
    (∀ p ∈ [pO], p.mass ≠ 0) ∧
    ((((nBodyInner [pO] blankImage).2).map fun p => p.mass * p.xVelocity).sum
        = ([pO].map fun p => p.mass * p.xVelocity).sum ∧
     (((nBodyInner [pO] blankImage).2).map fun p => p.mass * p.yVelocity).sum
        = ([pO].map fun p => p.mass * p.yVelocity).sum) := by
  have hm : ∀ p ∈ [pO], p.mass ≠ 0 := by
    intro p hp
    rw [List.mem_singleton] at hp
    rw [hp, show pO.mass = 1 from rfl]
    norm_num
  exact ⟨hm, momentum_conserved [pO] blankImage hm⟩

lemma innerLoop_preserve (X Y : ℤ) (c : ℕ) (x : ℤ) (ys : List ℤ) (m0 : Image)
    (px py : ℤ) (h : m0 px py = c) :
    (ys.foldl
      (fun m2 y =>
        if x * x + y * y < drawRadius * drawRadius then setColorIndex m2 (X + x) (Y + y) c
        else m2) m0) px py = c := by
  induction ys generalizing m0 with
  | nil => exact h
  | cons y0 tl ih =>
      rw [List.foldl_cons]
      apply ih
      by_cases hc : x * x + y0 * y0 < drawRadius * drawRadius
      · rw [if_pos hc]
        simp only [setColorIndex]
        split_ifs
        · rfl
        · exact h
      · rw [if_neg hc]
        exact h

lemma innerLoop_set (X Y : ℤ) (c : ℕ) (x : ℤ) (ys : List ℤ) (m0 : Image)
    (px py : ℤ)
    (h : ∃ y ∈ ys, x * x + y * y < drawRadius * drawRadius ∧
        px = X + x ∧ py = Y + y ∧
        0 ≤ X + x ∧ X + x < size + 1 ∧ 0 ≤ Y + y ∧ Y + y < size + 1) :
    (ys.foldl
      (fun m2 y =>
        if x * x + y * y < drawRadius * drawRadius then setColorIndex m2 (X + x) (Y + y) c
        else m2) m0) px py = c := by
  induction ys generalizing m0 with
  | nil =>
      rcases h with ⟨y, hy, _⟩
      exact absurd hy (List.not_mem_nil y)
  | cons y0 tl ih =>
      rw [List.foldl_cons]
      rcases h with ⟨y, hymem, hcond, hpx, hpy, hb1, hb2, hb3, hb4⟩
      rcases List.mem_cons.mp hymem with heq | hmem
      · subst heq
        apply innerLoop_preserve
        rw [if_pos hcond]
        simp only [setColorIndex]
        rw [if_pos ⟨hb1, hb2, hb3, hb4, hpx, hpy⟩]
      · exact ih _ ⟨y, hmem, hcond, hpx, hpy, hb1, hb2, hb3, hb4⟩

lemma innerLoop_keep (X Y : ℤ) (c : ℕ) (x : ℤ) (ys : List ℤ) (m0 : Image)
    (px py : ℤ)
    (h : ∀ y ∈ ys, x * x + y * y < drawRadius * drawRadius →
        ¬(px = X + x ∧ py = Y + y)) :
    (ys.foldl
      (fun m2 y =>
        if x * x + y * y < drawRadius * drawRadius then setColorIndex m2 (X + x) (Y + y) c
        else m2) m0) px py = m0 px py := by
  induction ys generalizing m0 with
  | nil => rfl
  | cons y0 tl ih =>
      rw [List.foldl_cons]
      rw [ih _ (fun y hy => h y (List.mem_cons_of_mem y0 hy))]
      by_cases hc : x * x + y0 * y0 < drawRadius * drawRadius
      · rw [if_pos hc]
        simp only [setColorIndex]
        rw [if_neg]
        rintro ⟨_, _, _, _, h5, h6⟩
        exact h y0 (List.mem_cons_self y0 tl) hc ⟨h5, h6⟩
      · rw [if_neg hc]

lemma outerLoop_preserve (X Y : ℤ) (c : ℕ) (xs : List ℤ) (m0 : Image)
    (px py : ℤ) (h : m0 px py = c) :
    (xs.foldl
      (fun m1 x =>
        (offsets drawRadius).foldl
          (fun m2 y =>
            if x * x + y * y < drawRadius * drawRadius then setColorIndex m2 (X + x) (Y + y) c
            else m2) m1) m0) px py = c := by
  induction xs generalizing m0 with
  | nil => exact h
  | cons x0 tl ih =>
      rw [List.foldl_cons]
      apply ih
      exact innerLoop_preserve X Y c x0 (offsets drawRadius) m0 px py h

lemma outerLoop_set (X Y : ℤ) (c : ℕ) (xs : List ℤ) (m0 : Image) (px py : ℤ)
    (h : ∃ x ∈ xs, ∃ y ∈ offsets drawRadius,
        x * x + y * y < drawRadius * drawRadius ∧ px = X + x ∧ py = Y + y ∧
        0 ≤ X + x ∧ X + x < size + 1 ∧ 0 ≤ Y + y ∧ Y + y < size + 1) :
    (xs.foldl
      (fun m1 x =>
        (offsets drawRadius).foldl
          (fun m2 y =>
            if x * x + y * y < drawRadius * drawRadius then setColorIndex m2 (X + x) (Y + y) c
            else m2) m1) m0) px py = c := by
  induction xs generalizing m0 with
  | nil =>
      rcases h with ⟨x, hx, _⟩
      exact absurd hx (List.not_mem_nil x)
  | cons x0 tl ih =>
      rw [List.foldl_cons]
      rcases h with ⟨x, hxmem, y, hymem, hcond, hpx, hpy, hb1, hb2, hb3, hb4⟩
      rcases List.mem_cons.mp hxmem with heq | hmem
      · subst heq
        apply outerLoop_preserve
        exact innerLoop_set X Y c x (offsets drawRadius) m0 px py
          ⟨y, hymem, hcond, hpx, hpy, hb1, hb2, hb3, hb4⟩
      · exact ih _ ⟨x, hmem, y, hymem, hcond, hpx, hpy, hb1, hb2, hb3, hb4⟩

lemma outerLoop_keep (X Y : ℤ) (c : ℕ) (xs : List ℤ) (m0 : Image) (px py : ℤ)
    (h : ∀ x ∈ xs, ∀ y ∈ offsets drawRadius,
        x * x + y * y < drawRadius * drawRadius → ¬(px = X + x ∧ py = Y + y)) :
    (xs.foldl
      (fun m1 x =>
        (offsets drawRadius).foldl
          (fun m2 y =>
            if x * x + y * y < drawRadius * drawRadius then setColorIndex m2 (X + x) (Y + y) c
            else m2) m1) m0) px py = m0 px py := by
  induction xs generalizing m0 with
  | nil => rfl
  | cons x0 tl ih =>
      rw [List.foldl_cons]
      rw [ih _ (fun x hx => h x (List.mem_cons_of_mem x0 hx))]
      exact innerLoop_keep X Y c x0 (offsets drawRadius) m0 px py
        (h x0 (List.mem_cons_self x0 tl))

/-- C8: drawing a particle at world position (0, 0) writes the particle's
color index to exactly the pixels at offsets `(dx, dy)` from pixel
`(size / 2, size / 2)` with `dx^2 + dy^2 < drawRadius^2`, leaving every other
pixel of the canvas unchanged: a filled disk of the configured draw radius
centered at `(size / 2, size / 2)`, world coordinates being mapped to pixels
by adding half the canvas extent. -/
theorem drawCircle_origin_filled_disk (img : Image) (px py : ℤ) :
    drawCircle img pO drawRadius greenIndex px py
      = if (px - size / 2) ^ 2 + (py - size / 2) ^ 2 < drawRadius ^ 2 then greenIndex
        else img px py := by
  have hunfold : drawCircle img pO drawRadius greenIndex
      = (offsets drawRadius).foldl
          (fun m1 x =>
            (offsets drawRadius).foldl
              (fun m2 y =>
                if x * x + y * y < drawRadius * drawRadius then
                  setColorIndex m2 (size / 2 + x) (size / 2 + y) greenIndex
                else m2)
              m1)
          img := by
    unfold drawCircle
    simp only [show trunc pO.xPosition = 0 from trunc_zero,
      show trunc pO.yPosition = 0 from trunc_zero, add_zero]
  rw [hunfold]
  have hsz : size = 800 := rfl
  have hdr : drawRadius = 8 := rfl
  have hdr2 : drawRadius ^ 2 = 64 := by rw [hdr]; norm_num
  have hdrm : drawRadius * drawRadius = 64 := by rw [hdr]; norm_num
  by_cases hdisk : (px - size / 2) ^ 2 + (py - size / 2) ^ 2 < drawRadius ^ 2
  · rw [if_pos hdisk]
    rw [hdr2] at hdisk
    have hx1 : -8 ≤ px - size / 2 := by nlinarith [sq_nonneg (px - size / 2 + 8), sq_nonneg (py - size / 2)]
    have hx2 : px - size / 2 < 8 := by nlinarith [sq_nonneg (px - size / 2 - 8), sq_nonneg (py - size / 2)]
    have hy1 : -8 ≤ py - size / 2 := by nlinarith [sq_nonneg (py - size / 2 + 8), sq_nonneg (px - size / 2)]
    have hy2 : py - size / 2 < 8 := by nlinarith [sq_nonneg (py - size / 2 - 8), sq_nonneg (px - size / 2)]
    apply outerLoop_set (size / 2) (size / 2) greenIndex
    refine ⟨px - size / 2, (mem_offsets drawRadius (px - size / 2)).mpr ⟨by rw [hdr]; exact hx1, by rw [hdr]; exact hx2⟩,
      py - size / 2, (mem_offsets drawRadius (py - size / 2)).mpr ⟨by rw [hdr]; exact hy1, by rw [hdr]; exact hy2⟩,
      ?_, by ring, by ring, ?_, ?_, ?_, ?_⟩
    · rw [hdrm]
      nlinarith [hdisk]
    · omega
    · omega
    · omega
    · omega
  · rw [if_neg hdisk]
    apply outerLoop_keep (size / 2) (size / 2) greenIndex
    intro x hx y hy hcond
    rintro ⟨hpx, hpy⟩
    apply hdisk
    rw [hpx, hpy, add_sub_cancel_left, add_sub_cancel_left, hdr2]
    rw [hdrm] at hcond
    nlinarith [hcond]

end ThreeBody
